import Mathlib

/-!
Verification of the `valkyrjs/testcontainers` repository.

Shallow embedding of the port allocator (`src/docker/libraries/port.ts`),
the container handle (`container.ts`), the docker client wrapper and the
postgres connection-url utilities (`containers/postgres.ts`).

The host's TCP port space is abstracted by an occupancy predicate
`occ : Int → Bool`: `occ p = true` means a live bind of port `p` fails
with `AddrInUse` (the port is busy), so `Deno.listen` succeeds exactly
when `occ p = false`.  JavaScript numbers that the library feeds through
arithmetic and comparisons are embedded as `Int` (all values reached here
are integral); `Math.random()` results are embedded as exact rationals.
-/

namespace Testcontainers

set_option maxRecDepth 100000

/-- JavaScript error values thrown by the embedded code: `RangeError`
from the port-range validation and plain `Error` from the postgres
option-key check. -/
inductive JsErr where
  | rangeError (msg : String)
  | genericError (msg : String)
deriving DecidableEq

/-- `export const MIN_PORT = 1024` -/
def MIN_PORT : Int := 1024

/-- `export const MAX_PORT = 65535` -/
def MAX_PORT : Int := 65535

/-- `type CheckedPort = { valid: boolean; port: number }` -/
structure CheckedPort where
  valid : Bool
  port : Int
deriving DecidableEq

/-- `checkPort(options)` runs a listener probe on `options.port` and
reports whether the bind succeeded.  The live `Deno.listen` probe is
abstracted by the occupancy predicate `occ`. -/
def checkPort (occ : Int → Bool) (port : Int) : CheckedPort :=
  { valid := !(occ port), port := port }

/-- The loop `for (let port = from; port <= to; port++) ports.push(port)`,
unrolled on the iteration count. -/
def pushLoop : Int → Nat → List Int
  | _, 0 => []
  | a, n + 1 => a :: pushLoop (a + 1) n

/-- The list built by the `makeRange` loop: `from, from+1, ..., to`
(empty when `to < from`, as the loop body never runs). -/
def rangeList (a b : Int) : List Int := pushLoop a (b + 1 - a).toNat

/-- `makeRange(from, to)` from `src/docker/libraries/port.ts`, including
its (inverted, hence vacuous) bounds guards `!(x > MIN_PORT || x < MAX_PORT)`. -/
def makeRange (f t : Int) : Except JsErr (List Int) :=
  if ¬(f > MIN_PORT ∨ f < MAX_PORT) then
    Except.error (JsErr.rangeError "`from` must be between 1024 and 65535")
  else if ¬(t > MIN_PORT ∨ t < MAX_PORT) then
    Except.error (JsErr.rangeError "`to` must be between 1024 and 65536")
  else if ¬(t > f) then
    Except.error (JsErr.rangeError "`to` must be greater than or equal to `from`")
  else
    Except.ok (rangeList f t)

/-- The two bounds guards of `makeRange` can never fire: their condition
`!(x > 1024 || x < 65535)` is false for every integer. -/
theorem makeRange_eq (f t : Int) :
    makeRange f t =
      if t > f then Except.ok (rangeList f t)
      else Except.error (JsErr.rangeError "`to` must be greater than or equal to `from`") := by
  have h1 : f > MIN_PORT ∨ f < MAX_PORT := by
    simp only [MIN_PORT, MAX_PORT]; omega
  have h2 : t > MIN_PORT ∨ t < MAX_PORT := by
    simp only [MIN_PORT, MAX_PORT]; omega
  simp only [makeRange, h1, h2, not_true, if_neg, if_false, not_not]
  by_cases h : t > f <;> simp [h]

theorem pushLoop_mem {a : Int} {n : Nat} {x : Int} :
    x ∈ pushLoop a n → a ≤ x ∧ x < a + n := by
  induction n generalizing a with
  | zero => simp [pushLoop]
  | succ n ih =>
    intro hx
    simp only [pushLoop, List.mem_cons] at hx
    rcases hx with rfl | hx
    · omega
    · have := ih hx
      push_cast at this ⊢
      omega

theorem mem_rangeList {a b x : Int} : x ∈ rangeList a b → a ≤ x ∧ x ≤ b := by
  intro hx
  have h := pushLoop_mem hx
  rcases h with ⟨h1, h2⟩
  refine ⟨h1, ?_⟩
  by_cases hab : a ≤ b + 1
  · have : ((b + 1 - a).toNat : Int) = b + 1 - a := Int.toNat_of_nonneg (by omega)
    rw [rangeList] at hx
    omega
  · have : (b + 1 - a).toNat = 0 := by omega
    rw [rangeList, this] at hx
    simp [pushLoop] at hx

theorem pushLoop_getLast? {n : Nat} (hn : n ≠ 0) (a : Int) :
    (pushLoop a n).getLast? = some (a + n - 1) := by
  induction n generalizing a with
  | zero => exact absurd rfl hn
  | succ n ih =>
    by_cases h : n = 0
    · subst h; simp [pushLoop]
    · have h2 := ih h (a + 1)
      rw [show pushLoop a (n + 1) = a :: pushLoop (a + 1) n from rfl, List.getLast?_cons, h2]
      simp only [Option.getD_some]
      congr 1
      push_cast
      ring

theorem rangeList_getLast? {a b : Int} (h : a ≤ b) :
    (rangeList a b).getLast? = some b := by
  have hn : (b + 1 - a).toNat ≠ 0 := by omega
  rw [rangeList, pushLoop_getLast? hn]
  have : ((b + 1 - a).toNat : Int) = b + 1 - a := Int.toNat_of_nonneg (by omega)
  congr 1
  omega

/-- C1 evaluation at the failing input: the bounds guards of `makeRange`
are inverted (`||` where `&&` was intended), so the out-of-range call
`makeRange(0, 5)` succeeds and returns `[0, 1, 2, 3, 4, 5]` instead of
throwing the `RangeError` promised by the claim and by the function's
own doc comment. -/
theorem makeRange_accepts_out_of_bounds :
    makeRange 0 5 = Except.ok [0, 1, 2, 3, 4, 5] := by rfl

/-- The three shapes of `getPort`'s first argument in
`getPort(port?: number | number[], hostname?)`: absent, a single number,
or an array of numbers. -/
inductive PortArg where
  | noPref
  | single (p : Int)
  | list (l : List Int)
deriving DecidableEq

/-- The loop `for (const port of ports) { if (checkPort(...).valid) return }`
of `getPort`: the first candidate whose probe succeeds. -/
def findValid (occ : Int → Bool) : List Int → Option Int
  | [] => none
  | p :: rest =>
    if (checkPort occ p).valid then some (checkPort occ p).port
    else findValid occ rest

/-- The array/no-preference branch of `getPort`: probe the candidates in
order, return the first success, otherwise recurse (through `next`) on
`ports[ports.length - 1]` — which is `undefined` for the empty array. -/
def getPortList (next : PortArg → Option (Except JsErr Int)) (occ : Int → Bool)
    (ports : Except JsErr (List Int)) : Option (Except JsErr Int) :=
  match ports with
  | Except.error e => some (Except.error e)
  | Except.ok ports =>
    match findValid occ ports with
    | some p => some (Except.ok p)
    | none =>
      match ports.getLast? with
      | none => next PortArg.noPref
      | some q => next (PortArg.single q)

/-- `getPort(port?, hostname?)` with its recursion depth made explicit by
a fuel parameter; `none` marks fuel exhaustion, and `getPort_isSome`
below shows that fuel `4` always suffices, so the recursion always
bottoms out.  A `single 0` argument is falsy in JavaScript (`!port`),
hence dispatches to the no-preference branch exactly as `undefined`
does. -/
def getPortA (occ : Int → Bool) : Nat → PortArg → Option (Except JsErr Int)
  | 0, _ => none
  | fuel + 1, PortArg.noPref =>
      getPortList (getPortA occ fuel) occ (makeRange (MIN_PORT + 1) (MAX_PORT - 1))
  | fuel + 1, PortArg.list l =>
      getPortList (getPortA occ fuel) occ (Except.ok l)
  | fuel + 1, PortArg.single p =>
      if p = 0 then
        getPortList (getPortA occ fuel) occ (makeRange (MIN_PORT + 1) (MAX_PORT - 1))
      else if (checkPort occ p).valid then
        some (Except.ok (checkPort occ p).port)
      else
        match makeRange ((checkPort occ p).port + 1) (MAX_PORT - 1) with
        | Except.error e => some (Except.error e)
        | Except.ok range => getPortA occ fuel (PortArg.list range)

/-- `getPort` at its sufficient recursion depth (see `getPort_isSome`). -/
def getPort (occ : Int → Bool) (arg : PortArg) : Option (Except JsErr Int) :=
  getPortA occ 4 arg

theorem findValid_eq_find? (occ : Int → Bool) (l : List Int) :
    findValid occ l = l.find? (fun p => !occ p) := by
  induction l with
  | nil => rfl
  | cons p rest ih =>
    simp only [findValid, checkPort, List.find?]
    by_cases h : occ p <;> simp [h, ih]

theorem findValid_some {occ : Int → Bool} {l : List Int} {r : Int}
    (h : findValid occ l = some r) : r ∈ l ∧ occ r = false := by
  rw [findValid_eq_find?] at h
  have h1 := List.find?_some h
  have h2 := List.mem_of_find?_eq_some h
  simp only [Bool.not_eq_true'] at h1
  exact ⟨h2, by simpa using h1⟩

theorem findValid_none {occ : Int → Bool} {l : List Int}
    (h : findValid occ l = none) : ∀ p ∈ l, occ p = true := by
  rw [findValid_eq_find?] at h
  intro p hp
  have := List.find?_eq_none.mp h p hp
  simpa using this

/-- Unfolding equation: `getPortList` on a thrown range error. -/
theorem getPortList_error (next : PortArg → Option (Except JsErr Int)) (occ : Int → Bool)
    (e : JsErr) : getPortList next occ (Except.error e) = some (Except.error e) := rfl

/-- Unfolding equation: `getPortList` on a successfully built candidate list. -/
theorem getPortList_ok (next : PortArg → Option (Except JsErr Int)) (occ : Int → Bool)
    (l : List Int) :
    getPortList next occ (Except.ok l) =
      match findValid occ l with
      | some p => some (Except.ok p)
      | none =>
        match l.getLast? with
        | none => next PortArg.noPref
        | some q => next (PortArg.single q) := rfl

/-- Unfolding equation: the no-preference branch of `getPort`. -/
theorem getPortA_noPref_eq (occ : Int → Bool) (fuel : Nat) :
    getPortA occ (fuel + 1) PortArg.noPref =
      getPortList (getPortA occ fuel) occ (makeRange (MIN_PORT + 1) (MAX_PORT - 1)) := rfl

/-- Unfolding equation: the candidate-array branch of `getPort`. -/
theorem getPortA_list_eq (occ : Int → Bool) (fuel : Nat) (l : List Int) :
    getPortA occ (fuel + 1) (PortArg.list l) =
      getPortList (getPortA occ fuel) occ (Except.ok l) := rfl

/-- Unfolding equation: the single-port branch of `getPort`. -/
theorem getPortA_single_eq (occ : Int → Bool) (fuel : Nat) (p : Int) :
    getPortA occ (fuel + 1) (PortArg.single p) =
      if p = 0 then
        getPortList (getPortA occ fuel) occ (makeRange (MIN_PORT + 1) (MAX_PORT - 1))
      else if (checkPort occ p).valid then
        some (Except.ok (checkPort occ p).port)
      else
        match makeRange ((checkPort occ p).port + 1) (MAX_PORT - 1) with
        | Except.error e => some (Except.error e)
        | Except.ok range => getPortA occ fuel (PortArg.list range) := rfl

theorem getPortList_mono {next next' : PortArg → Option (Except JsErr Int)}
    {occ : Int → Bool} {ports : Except JsErr (List Int)} {r : Except JsErr Int}
    (hn : ∀ a r, next a = some r → next' a = some r) :
    getPortList next occ ports = some r → getPortList next' occ ports = some r := by
  intro h
  cases ports with
  | error e => exact h
  | ok l =>
    rw [getPortList_ok] at h ⊢
    cases hf : findValid occ l with
    | some p => simp only [hf] at h ⊢; exact h
    | none =>
      simp only [hf] at h ⊢
      cases hl : l.getLast? with
      | none => simp only [hl] at h ⊢; exact hn _ _ h
      | some q => simp only [hl] at h ⊢; exact hn _ _ h

theorem getPortA_mono {occ : Int → Bool} :
    ∀ {fuel fuel' : Nat} {arg : PortArg} {r : Except JsErr Int},
      fuel ≤ fuel' → getPortA occ fuel arg = some r → getPortA occ fuel' arg = some r := by
  intro fuel
  induction fuel with
  | zero => intro fuel' arg r _ h; simp [getPortA] at h
  | succ k ih =>
    intro fuel' arg r hle h
    obtain ⟨k', rfl⟩ : ∃ k', fuel' = k' + 1 := ⟨fuel' - 1, by omega⟩
    have hk : k ≤ k' := by omega
    have hnext : ∀ a r, getPortA occ k a = some r → getPortA occ k' a = some r :=
      fun _ _ hh => ih hk hh
    cases arg with
    | noPref =>
      rw [getPortA_noPref_eq] at h ⊢
      exact getPortList_mono hnext h
    | list l =>
      rw [getPortA_list_eq] at h ⊢
      exact getPortList_mono hnext h
    | single p =>
      rw [getPortA_single_eq] at h ⊢
      by_cases h0 : p = 0
      · rw [if_pos h0] at h ⊢
        exact getPortList_mono hnext h
      · rw [if_neg h0] at h ⊢
        by_cases hv : (checkPort occ p).valid
        · rw [if_pos hv] at h ⊢
          exact h
        · rw [if_neg hv] at h ⊢
          cases hm : makeRange ((checkPort occ p).port + 1) (MAX_PORT - 1) with
          | error e => simp only [hm] at h ⊢; exact h
          | ok range => simp only [hm] at h ⊢; exact ih hk h

theorem getPortA_mono_isSome {occ : Int → Bool} {fuel fuel' : Nat} {arg : PortArg}
    (hle : fuel ≤ fuel') (h : (getPortA occ fuel arg).isSome) :
    (getPortA occ fuel' arg).isSome := by
  obtain ⟨r, hr⟩ := Option.isSome_iff_exists.mp h
  exact Option.isSome_iff_exists.mpr ⟨r, getPortA_mono hle hr⟩

theorem getPortA_single_high {occ : Int → Bool} {p : Int} (h0 : p ≠ 0) (hh : 65533 ≤ p) :
    (getPortA occ 1 (PortArg.single p)).isSome := by
  rw [getPortA_single_eq, if_neg h0]
  by_cases hv : (checkPort occ p).valid
  · rw [if_pos hv]; simp
  · rw [if_neg hv]
    have hm : makeRange ((checkPort occ p).port + 1) (MAX_PORT - 1) =
        Except.error (JsErr.rangeError "`to` must be greater than or equal to `from`") := by
      rw [makeRange_eq]
      have hng : ¬(MAX_PORT - 1 > (checkPort occ p).port + 1) := by
        simp only [checkPort, MAX_PORT]; omega
      rw [if_neg hng]
    simp only [hm]
    simp

theorem getPortList_isSome_of_last {next : PortArg → Option (Except JsErr Int)}
    {occ : Int → Bool} {l : List Int} (hl : l.getLast? = some (65534 : Int))
    (hn : (next (PortArg.single 65534)).isSome) :
    (getPortList next occ (Except.ok l)).isSome := by
  rw [getPortList_ok]
  cases hf : findValid occ l with
  | some p => simp [hf]
  | none => simp only [hf, hl]; exact hn

theorem getPortA_list_last65534 (occ : Int → Bool) {l : List Int}
    (hl : l.getLast? = some (65534 : Int)) :
    (getPortA occ 2 (PortArg.list l)).isSome := by
  rw [show (2 : Nat) = 1 + 1 from rfl, getPortA_list_eq]
  exact getPortList_isSome_of_last hl (getPortA_single_high (by norm_num) (by norm_num))

theorem fullRange_getLast? :
    (rangeList (MIN_PORT + 1) (MAX_PORT - 1)).getLast? = some (65534 : Int) := by
  have h1 : (MAX_PORT - 1 : Int) = 65534 := by norm_num [MAX_PORT]
  rw [rangeList_getLast? (by norm_num [MIN_PORT, MAX_PORT]), h1]

theorem makeRange_full :
    makeRange (MIN_PORT + 1) (MAX_PORT - 1) =
      Except.ok (rangeList (MIN_PORT + 1) (MAX_PORT - 1)) := by
  rw [makeRange_eq]
  have h1 : (MAX_PORT - 1 : Int) > MIN_PORT + 1 := by norm_num [MIN_PORT, MAX_PORT]
  rw [if_pos h1]

theorem getPortA_noPref_isSome {occ : Int → Bool} :
    (getPortA occ 2 PortArg.noPref).isSome := by
  rw [show (2 : Nat) = 1 + 1 from rfl, getPortA_noPref_eq, makeRange_full]
  exact getPortList_isSome_of_last fullRange_getLast?
    (getPortA_single_high (by norm_num) (by norm_num))

theorem getPortA_single_zero_isSome {occ : Int → Bool} :
    (getPortA occ 2 (PortArg.single 0)).isSome := by
  rw [show (2 : Nat) = 1 + 1 from rfl, getPortA_single_eq, if_pos rfl, makeRange_full]
  exact getPortList_isSome_of_last fullRange_getLast?
    (getPortA_single_high (by norm_num) (by norm_num))

theorem getPortA_single_pos {occ : Int → Bool} {p : Int} (h0 : p ≠ 0) :
    (getPortA occ 3 (PortArg.single p)).isSome := by
  rw [show (3 : Nat) = 2 + 1 from rfl, getPortA_single_eq, if_neg h0]
  by_cases hv : (checkPort occ p).valid
  · rw [if_pos hv]; simp
  · rw [if_neg hv, makeRange_eq]
    by_cases hgt : (MAX_PORT - 1 : Int) > (checkPort occ p).port + 1
    · rw [if_pos hgt]
      have hlast : (rangeList ((checkPort occ p).port + 1) (MAX_PORT - 1)).getLast? =
          some (65534 : Int) := by
        have h65534 : (MAX_PORT - 1 : Int) = 65534 := by norm_num [MAX_PORT]
        rw [rangeList_getLast? (le_of_lt hgt), h65534]
      exact getPortA_list_last65534 occ hlast
    · rw [if_neg hgt]
      simp

theorem getPort_isSome (occ : Int → Bool) (arg : PortArg) : (getPort occ arg).isSome := by
  unfold getPort
  cases arg with
  | noPref => exact getPortA_mono_isSome (show 2 ≤ 4 by norm_num) getPortA_noPref_isSome
  | single p =>
    by_cases h0 : p = 0
    · subst h0
      exact getPortA_mono_isSome (show 2 ≤ 4 by norm_num) getPortA_single_zero_isSome
    · exact getPortA_mono_isSome (show 3 ≤ 4 by norm_num) (getPortA_single_pos h0)
  | list l =>
    rw [show (4 : Nat) = 3 + 1 from rfl, getPortA_list_eq, getPortList_ok]
    cases hf : findValid occ l with
    | some p => simp [hf]
    | none =>
      simp only [hf]
      cases hl : l.getLast? with
      | none =>
        simp only [hl]
        exact getPortA_mono_isSome (show 2 ≤ 3 by norm_num) getPortA_noPref_isSome
      | some q =>
        simp only [hl]
        by_cases h0 : q = 0
        · subst h0
          exact getPortA_mono_isSome (show 2 ≤ 3 by norm_num) getPortA_single_zero_isSome
        · exact getPortA_single_pos h0

theorem getPortList_ok_free {next : PortArg → Option (Except JsErr Int)}
    {occ : Int → Bool} {ports : Except JsErr (List Int)} {p : Int}
    (hn : ∀ a q, next a = some (Except.ok q) → occ q = false) :
    getPortList next occ ports = some (Except.ok p) → occ p = false := by
  intro h
  cases ports with
  | error e => rw [getPortList_error] at h; simp at h
  | ok l =>
    rw [getPortList_ok] at h
    cases hf : findValid occ l with
    | some q =>
      simp only [hf, Option.some.injEq, Except.ok.injEq] at h
      subst h
      exact (findValid_some hf).2
    | none =>
      simp only [hf] at h
      cases hl : l.getLast? with
      | none => simp only [hl] at h; exact hn _ _ h
      | some q => simp only [hl] at h; exact hn _ _ h

theorem getPortA_ok_free {occ : Int → Bool} :
    ∀ {fuel : Nat} {arg : PortArg} {p : Int},
      getPortA occ fuel arg = some (Except.ok p) → occ p = false := by
  intro fuel
  induction fuel with
  | zero => intro arg p h; simp [getPortA] at h
  | succ k ih =>
    intro arg p h
    have hnext : ∀ a q, getPortA occ k a = some (Except.ok q) → occ q = false :=
      fun _ _ hh => ih hh
    cases arg with
    | noPref =>
      rw [getPortA_noPref_eq] at h
      exact getPortList_ok_free hnext h
    | list l =>
      rw [getPortA_list_eq] at h
      exact getPortList_ok_free hnext h
    | single q =>
      rw [getPortA_single_eq] at h
      by_cases h0 : q = 0
      · rw [if_pos h0] at h
        exact getPortList_ok_free hnext h
      · rw [if_neg h0] at h
        by_cases hv : (checkPort occ q).valid
        · rw [if_pos hv] at h
          have hp : (checkPort occ q).port = p := by simpa using h
          have hocc : (checkPort occ q).valid = true := hv
          simp only [checkPort] at hp hocc
          subst hp
          simpa using hocc
        · rw [if_neg hv] at h
          cases hm : makeRange ((checkPort occ q).port + 1) (MAX_PORT - 1) with
          | error e => simp only [hm] at h; simp at h
          | ok range => simp only [hm] at h; exact ih h

theorem MAX_PORT_sub_one : (MAX_PORT - 1 : Int) = 65534 := by norm_num [MAX_PORT]

theorem MIN_PORT_add_one : (MIN_PORT + 1 : Int) = 1025 := by norm_num [MIN_PORT]

theorem findValid_eq_none {occ : Int → Bool} {l : List Int}
    (h : ∀ p ∈ l, occ p = true) : findValid occ l = none := by
  rw [findValid_eq_find?]
  refine List.find?_eq_none.mpr ?_
  intro p hp
  simp [h p hp]

/-- `findValid` on an ascending contiguous range returns its least free
element: if `q` lies in `[a, b]`, is free, and everything in `[a, q)` is
busy, the scan stops exactly at `q`. -/
theorem findValid_pushLoop_least {occ : Int → Bool} {q : Int} :
    ∀ {n : Nat} {a : Int}, a ≤ q → q < a + n → occ q = false →
      (∀ p, a ≤ p → p < q → occ p = true) →
      findValid occ (pushLoop a n) = some q := by
  intro n
  induction n with
  | zero => intro a h1 h2 _ _; omega
  | succ n ih =>
    intro a h1 h2 h3 h4
    simp only [pushLoop, findValid]
    by_cases ha : occ a = true
    · have hne : a ≠ q := by intro hh; rw [hh] at ha; rw [ha] at h3; cases h3
      have : (checkPort occ a).valid = false := by simp [checkPort, ha]
      rw [this]
      simp only [Bool.false_eq_true, if_false]
      refine ih (by omega) (by push_cast at h2 ⊢; omega) h3 ?_
      intro p hp1 hp2
      exact h4 p (by omega) hp2
    · have haq : a = q := by
        by_contra hne
        have : occ a = true := h4 a le_rfl (by omega)
        exact ha this
      have : (checkPort occ a).valid = true := by
        simp only [Bool.not_eq_true] at ha
        simp [checkPort, ha]
      rw [this]
      simp only [if_true]
      rw [show (checkPort occ a).port = a from rfl, haq]

theorem findValid_rangeList_least {occ : Int → Bool} {a b q : Int}
    (h1 : a ≤ q) (h2 : q ≤ b) (h3 : occ q = false)
    (h4 : ∀ p, a ≤ p → p < q → occ p = true) :
    findValid occ (rangeList a b) = some q := by
  rw [rangeList]
  refine findValid_pushLoop_least h1 ?_ h3 h4
  have : ((b + 1 - a).toNat : Int) = b + 1 - a := Int.toNat_of_nonneg (by omega)
  omega

/-- C2. When `getPort` is called with no port preference it scans the
candidate range `[1025, 65534]` in ascending order and returns the least
(i.e. first) candidate whose bind-and-release probe succeeds, and any
port it returns passed the probe. -/
theorem getPort_noPref_first_free (occ : Int → Bool) (q : Int) :
    (1025 ≤ q → q ≤ 65534 → occ q = false →
      (∀ p, 1025 ≤ p → p < q → occ p = true) →
      getPort occ PortArg.noPref = some (Except.ok q)) ∧
    (∀ r, getPort occ PortArg.noPref = some (Except.ok r) → occ r = false) := by
  constructor
  · intro h1 h2 h3 h4
    show getPortA occ (3 + 1) PortArg.noPref = some (Except.ok q)
    rw [getPortA_noPref_eq, makeRange_full, getPortList_ok]
    have hf : findValid occ (rangeList (MIN_PORT + 1) (MAX_PORT - 1)) = some q := by
      rw [MIN_PORT_add_one, MAX_PORT_sub_one]
      exact findValid_rangeList_least h1 h2 h3 h4
    simp only [hf]
  · intro r hr
    exact getPortA_ok_free hr

/-- Witness for C2 at a fully free port space: the scan returns 1025. -/
theorem getPort_noPref_first_free_witness :
    getPort (fun _ => false) PortArg.noPref = some (Except.ok 1025) :=
  (getPort_noPref_first_free (fun _ => false) 1025).1 (by norm_num) (by norm_num) rfl
    (by intro p hp hq; omega)

/-- C10. `getPort` terminates on every call: recursion depth 4 always
suffices (the result is fuel-independent from 4 on and is never the
fuel-exhaustion marker `none`), and the call either returns a port that
passed the probe or throws an error. -/
theorem getPort_terminates (occ : Int → Bool) (arg : PortArg) (fuel : Nat)
    (hfuel : 4 ≤ fuel) :
    getPortA occ fuel arg = getPort occ arg ∧
    getPort occ arg ≠ none ∧
    (∀ p, getPort occ arg = some (Except.ok p) → occ p = false) := by
  obtain ⟨r, hr⟩ := Option.isSome_iff_exists.mp (getPort_isSome occ arg)
  refine ⟨?_, ?_, ?_⟩
  · rw [hr]
    exact getPortA_mono hfuel hr
  · rw [hr]; simp
  · intro p hp
    exact getPortA_ok_free hp

/-- Witness for C10 at an all-busy port space and preferred port 65533:
extra fuel does not change the outcome, which is the `RangeError` thrown
by `makeRange(65534, 65534)`. -/
theorem getPort_terminates_witness :
    getPortA (fun _ => true) 9 (PortArg.single 65533) =
        getPort (fun _ => true) (PortArg.single 65533) ∧
      getPort (fun _ => true) (PortArg.single 65533) =
        some (Except.error (JsErr.rangeError "`to` must be greater than or equal to `from`")) :=
  ⟨(getPort_terminates (fun _ => true) (PortArg.single 65533) 9 (by norm_num)).1, rfl⟩

/-- C4 counterexample. Preferred port 65533 is busy and 65534 — the first
free candidate above it — is free, yet `getPort` does not return 65534:
`makeRange(65534, 65534)` rejects its own singleton range (`to > from`
fails), so the call throws a `RangeError` instead. -/
theorem getPort_preferred_boundary_cex :
    getPort (fun p => decide (p = 65533)) (PortArg.single 65533) =
        some (Except.error (JsErr.rangeError "`to` must be greater than or equal to `from`")) ∧
      (fun p => decide (p = 65533)) (65534 : Int) = false ∧
      some (Except.error (JsErr.rangeError "`to` must be greater than or equal to `from`")) ≠
        (some (Except.ok 65534) : Option (Except JsErr Int)) := by
  refine ⟨rfl, rfl, ?_⟩
  simp

/-- C4 as amended. For a nonzero preferred port `p`: if its probe
succeeds `getPort` returns `p`; if `p` is busy the call never returns
`p`, and — provided `p ≤ 65532`, so that the range `p+1 .. 65534` can be
built at all — it returns the least free candidate strictly above `p`
whenever one exists in that range (for `p ≥ 65533` the call instead
fails with a `RangeError`, see the counterexample). -/
theorem getPort_single_preferred (occ : Int → Bool) (p q : Int) :
    (occ p = false → p ≠ 0 → getPort occ (PortArg.single p) = some (Except.ok p)) ∧
    (occ p = true → ∀ r, getPort occ (PortArg.single p) = some (Except.ok r) → r ≠ p) ∧
    (occ p = true → p ≠ 0 → p ≤ 65532 → p < q → q ≤ 65534 → occ q = false →
      (∀ x, p < x → x < q → occ x = true) →
      getPort occ (PortArg.single p) = some (Except.ok q)) := by
  refine ⟨?_, ?_, ?_⟩
  · intro hfree h0
    show getPortA occ (3 + 1) (PortArg.single p) = some (Except.ok p)
    rw [getPortA_single_eq, if_neg h0]
    have hv : (checkPort occ p).valid = true := by simp [checkPort, hfree]
    rw [if_pos hv]
    rfl
  · intro hbusy r hr
    intro hrp
    subst hrp
    have : occ r = false := getPortA_ok_free hr
    rw [this] at hbusy
    cases hbusy
  · intro hbusy h0 h65532 hpq hq65534 hqfree hbetween
    show getPortA occ (3 + 1) (PortArg.single p) = some (Except.ok q)
    rw [getPortA_single_eq, if_neg h0]
    have hv : (checkPort occ p).valid = false := by simp [checkPort, hbusy]
    rw [hv]
    simp only [Bool.false_eq_true, if_false]
    rw [show (checkPort occ p).port = p from rfl, makeRange_eq]
    have hgt : (MAX_PORT - 1 : Int) > p + 1 := by rw [MAX_PORT_sub_one]; omega
    rw [if_pos hgt]
    show getPortA occ (2 + 1) (PortArg.list (rangeList (p + 1) (MAX_PORT - 1))) = _
    rw [getPortA_list_eq, getPortList_ok]
    have hf : findValid occ (rangeList (p + 1) (MAX_PORT - 1)) = some q := by
      rw [MAX_PORT_sub_one]
      refine findValid_rangeList_least (by omega) (by omega) hqfree ?_
      intro x hx1 hx2
      exact hbetween x (by omega) hx2
    simp only [hf]

/-- Witness for C4 with port 5000 busy and everything else free: the
probe on 5000 fails and the allocator falls through to 5001. -/
theorem getPort_single_preferred_witness :
    getPort (fun p => decide (p = 5000)) (PortArg.single 5000) = some (Except.ok 5001) ∧
      getPort (fun p => decide (p = 6000)) (PortArg.single 7000) = some (Except.ok 7000) :=
  ⟨(getPort_single_preferred (fun p => decide (p = 5000)) 5000 5001).2.2 (by decide)
      (by decide) (by norm_num) (by norm_num) (by norm_num) (by decide)
      (by intro x h1 h2; omega),
    (getPort_single_preferred (fun p => decide (p = 6000)) 7000 0).1 (by decide) (by norm_num)⟩

/-- C5 counterexample. A candidate list whose last (failing) candidate is
`0`: JavaScript treats the recursive call `getPort(0)` as "no
preference" (`!port` is true for `0`), so the search restarts on the
default range `[1025, 65534]` — returning 1025 here — rather than on the
range seeded from the last failing candidate, which would return 1024. -/
theorem getPort_list_trailing_zero_cex :
    getPort (fun p => decide (p < 1024)) (PortArg.list [0]) = some (Except.ok 1025) ∧
      (match makeRange (0 + 1) (MAX_PORT - 1) with
        | Except.error e => some (Except.error e)
        | Except.ok range => getPort (fun p => decide (p < 1024)) (PortArg.list range)) =
        some (Except.ok (1024 : Int)) ∧
      (some (Except.ok (1025 : Int)) : Option (Except JsErr Int)) ≠
        some (Except.ok (1024 : Int)) := by
  refine ⟨rfl, rfl, ?_⟩
  simp

/-- C5 as amended. With an explicit candidate list, `getPort` probes the
candidates in list order and returns the first success; if every
candidate fails, it recurses — through a single-preferred-port call on
the last candidate — into the range from `last+1` to `65534`, provided
the last failing candidate is nonzero (a trailing `0` restarts on the
default range instead, see the counterexample). -/
theorem getPort_candidate_list (occ : Int → Bool) (l : List Int) (c q : Int) :
    (l.find? (fun x => !occ x) = some c →
      getPort occ (PortArg.list l) = some (Except.ok c)) ∧
    ((∀ x ∈ l, occ x = true) → l.getLast? = some q → q ≠ 0 →
      getPort occ (PortArg.list l) =
        match makeRange (q + 1) (MAX_PORT - 1) with
        | Except.error e => some (Except.error e)
        | Except.ok range => getPort occ (PortArg.list range)) := by
  constructor
  · intro hfind
    show getPortA occ (3 + 1) (PortArg.list l) = some (Except.ok c)
    rw [getPortA_list_eq, getPortList_ok]
    have hf : findValid occ l = some c := by rw [findValid_eq_find?]; exact hfind
    simp only [hf]
  · intro hall hlast h0
    have hstep : getPort occ (PortArg.list l) = getPortA occ 3 (PortArg.single q) := by
      show getPortA occ (3 + 1) (PortArg.list l) = _
      rw [getPortA_list_eq, getPortList_ok, findValid_eq_none hall]
      simp only [hlast]
    rw [hstep, getPortA_single_eq, if_neg h0]
    have hqbusy : occ q = true := hall q (List.mem_of_getLast?_eq_some hlast)
    have hv : (checkPort occ q).valid = false := by simp [checkPort, hqbusy]
    rw [hv]
    simp only [Bool.false_eq_true, if_false]
    rw [show (checkPort occ q).port = q from rfl]
    cases hm : makeRange (q + 1) (MAX_PORT - 1) with
    | error e => rfl
    | ok range =>
      have hlast65534 : range.getLast? = some (65534 : Int) := by
        rw [makeRange_eq] at hm
        by_cases hgt : (MAX_PORT - 1 : Int) > q + 1
        · rw [if_pos hgt] at hm
          have : range = rangeList (q + 1) (MAX_PORT - 1) := by
            injection hm with h
            exact h.symm
          rw [this, rangeList_getLast? (le_of_lt hgt), MAX_PORT_sub_one]
        · rw [if_neg hgt] at hm
          cases hm
      obtain ⟨r, hr⟩ := Option.isSome_iff_exists.mp
        (getPortA_list_last65534 occ hlast65534)
      show getPortA occ 2 (PortArg.list range) = getPort occ (PortArg.list range)
      rw [hr]
      exact (getPortA_mono (show 2 ≤ 4 by norm_num) hr).symm

/-- Witness for C5: a list whose second candidate is the first free one,
and an all-busy singleton list recursing into the seeded range. -/
theorem getPort_candidate_list_witness :
    getPort (fun p => decide (p < 1030)) (PortArg.list [1025, 1030]) =
        some (Except.ok 1030) ∧
      getPort (fun p => decide (p ≤ 66000)) (PortArg.list [2000]) =
        match makeRange (2000 + 1) (MAX_PORT - 1) with
        | Except.error e => some (Except.error e)
        | Except.ok range => getPort (fun p => decide (p ≤ 66000)) (PortArg.list range) :=
  ⟨(getPort_candidate_list (fun p => decide (p < 1030)) [1025, 1030] 1030 0).1 (by decide),
    (getPort_candidate_list (fun p => decide (p ≤ 66000)) [2000] 0 2000).2
      (by intro x hx; simp only [List.mem_singleton] at hx; subst hx; decide)
      rfl (by norm_num)⟩

/-- One candidate of `randomPort`:
`Math.ceil(Math.random() * ((MAX_PORT - 1) - MIN_PORT + 1) + MIN_PORT + 1)`,
with the `Math.random()` result `r` embedded as an exact rational. -/
def randomDraw (r : ℚ) : Int :=
  ⌈r * (((MAX_PORT : ℚ) - 1) - (MIN_PORT : ℚ) + 1) + (MIN_PORT : ℚ) + 1⌉

/-- `randomPort(hostname?)`: draw a candidate, return it if its probe
succeeds, otherwise retry with the next draw (rejection sampling).  The
infinite stream of `Math.random()` results is truncated to a finite list
of draws; `none` means every supplied draw was rejected. -/
def randomPort (occ : Int → Bool) : List ℚ → Option Int
  | [] => none
  | r :: rest =>
    if (checkPort occ (randomDraw r)).valid then some (checkPort occ (randomDraw r)).port
    else randomPort occ rest

theorem randomDraw_eq (r : ℚ) : randomDraw r = ⌈r * 64511 + 1025⌉ := by
  unfold randomDraw
  norm_num [MAX_PORT, MIN_PORT]
  ring_nf

/-- C6 counterexample. The draw `r = 129021/129022` (a legitimate
`Math.random()` value: `0 ≤ r < 1`) yields the candidate
`ceil(r * 64511 + 1025) = ceil(65535.5) = 65536`, which lies outside the
registered range `[1024, 65535]`; with a fully free port space
`randomPort` returns that out-of-range candidate. -/
theorem randomPort_draw_above_cex :
    (0 : ℚ) ≤ 129021 / 129022 ∧ (129021 / 129022 : ℚ) < 1 ∧
      randomDraw (129021 / 129022) = 65536 ∧
      randomPort (fun _ => false) [129021 / 129022] = some 65536 ∧
      ¬((65536 : Int) ≤ 65535) := by
  have hd : randomDraw (129021 / 129022) = 65536 := by
    rw [randomDraw_eq]
    rw [show (129021 / 129022 : ℚ) * 64511 + 1025 = 131071 / 2 by norm_num]
    rw [Int.ceil_eq_iff]
    constructor <;> norm_num
  refine ⟨by norm_num, by norm_num, hd, ?_, by norm_num⟩
  unfold randomPort
  rw [show (checkPort (fun _ => false) (randomDraw (129021 / 129022))).valid = true from rfl]
  simp only [if_true]
  rw [show (checkPort (fun _ => false) (randomDraw (129021 / 129022))).port =
        randomDraw (129021 / 129022) from rfl, hd]

/-- C6 as amended. Every candidate drawn by `randomPort` from a
`Math.random()` value `r ∈ [0, 1)` lies in `[1024, 65536]` (in fact in
`[1025, 65536]`; the claimed upper bound 65535 is exceeded for `r` close
to 1, see the counterexample), retries are rejection sampling over the
draws, and any port `randomPort` returns is a drawn candidate that
passed the bind-and-release probe. -/
theorem randomPort_range_and_probe (occ : Int → Bool) (draws : List ℚ) (p : Int) :
    (∀ r : ℚ, 0 ≤ r → r < 1 → 1024 ≤ randomDraw r ∧ randomDraw r ≤ 65536) ∧
    (randomPort occ draws = some p →
      occ p = false ∧ ∃ r ∈ draws, randomDraw r = p) := by
  constructor
  · intro r h0 h1
    rw [randomDraw_eq]
    constructor
    · have hle : (1025 : ℚ) ≤ r * 64511 + 1025 := by nlinarith
      have := Int.ceil_mono hle
      rw [show ⌈(1025 : ℚ)⌉ = 1025 by norm_num] at this
      omega
    · refine Int.ceil_le.mpr ?_
      push_cast
      nlinarith
  · induction draws with
    | nil => intro h; simp [randomPort] at h
    | cons r rest ih =>
      intro h
      unfold randomPort at h
      by_cases hv : (checkPort occ (randomDraw r)).valid
      · rw [if_pos hv] at h
        have hp : randomDraw r = p := by
          have : (checkPort occ (randomDraw r)).port = p := by simpa using h
          simpa [checkPort] using this
        subst hp
        have : (!(occ (randomDraw r))) = true := hv
        refine ⟨by simpa using this, r, List.mem_cons_self r rest, rfl⟩
      · rw [if_neg hv] at h
        obtain ⟨hfree, s, hs, hsp⟩ := ih h
        exact ⟨hfree, s, List.mem_cons_of_mem r hs, hsp⟩

/-- Witness for C6: the draw 0 gives candidate 1025, inside `[1024, 65536]`,
and with a free port space `randomPort` returns a probed port. -/
theorem randomPort_range_and_probe_witness :
    (1024 ≤ randomDraw 0 ∧ randomDraw 0 ≤ 65536) ∧
      ((fun _ => false : Int → Bool) 1025 = false ∧
        ∃ r ∈ [(0 : ℚ)], randomDraw r = 1025) :=
  ⟨(randomPort_range_and_probe (fun _ => false) [0] 1025).1 0 le_rfl (by norm_num),
    (randomPort_range_and_probe (fun _ => false) [0] 1025).2 (by
      unfold randomPort
      rw [show (checkPort (fun _ => false) (randomDraw 0)).valid = true from rfl]
      simp only [if_true]
      rw [show (checkPort (fun _ => false) (randomDraw 0)).port = randomDraw 0 from rfl]
      rw [show randomDraw 0 = 1025 by rw [randomDraw_eq]; norm_num])⟩

/-- The `for await (const chunk of res.stream)` loop of
`Container.logs(handler)`: the handler is invoked on each chunk in
stream order and the loop `break`s when it returns `true`.  The value is
the list of chunks the handler was invoked on. -/
def logsConsume (handler : String → Bool) : List String → List String
  | [] => []
  | line :: rest =>
    if handler line then [line]
    else line :: logsConsume handler rest

/-- `class Container` — the handle's only stored state: the
engine-assigned id and the creation warnings, both `readonly` fields
assigned in the constructor. -/
structure Container where
  id : String
  warnings : List String
deriving DecidableEq

/-- A control-plane request issued through the modem by a handle method. -/
inductive ModemReq where
  | post (path : String)
  | del (path : String)
  | get (path : String)
deriving DecidableEq

/-- `container.start(query)`: posts `/containers/{id}/start`.  Every
method result carries the handle value after the call, which the method
body leaves untouched. -/
def Container.start (c : Container) : Container × ModemReq :=
  (c, ModemReq.post ("/containers/" ++ c.id ++ "/start"))

/-- `container.stop(query)`: posts `/containers/{id}/stop`. -/
def Container.stop (c : Container) : Container × ModemReq :=
  (c, ModemReq.post ("/containers/" ++ c.id ++ "/stop"))

/-- `container.remove(query)`: deletes `/containers/{id}`. -/
def Container.remove (c : Container) : Container × ModemReq :=
  (c, ModemReq.del ("/containers/" ++ c.id))

/-- `container.inspect()`: gets `/containers/{id}/json`. -/
def Container.inspect (c : Container) : Container × ModemReq :=
  (c, ModemReq.get ("/containers/" ++ c.id ++ "/json"))

/-- `container.logs(handler)`: gets `/containers/{id}/logs` and consumes
the log stream through the per-line handler until the stop sentinel. -/
def Container.logs (c : Container) (handler : String → Bool) (stream : List String) :
    Container × ModemReq × List String :=
  (c, ModemReq.get ("/containers/" ++ c.id ++ "/logs"), logsConsume handler stream)

/-- `container.exec(cmd, opts)`: posts `/containers/{id}/exec`. -/
def Container.exec (c : Container) (_cmd : List String) : Container × ModemReq :=
  (c, ModemReq.post ("/containers/" ++ c.id ++ "/exec"))

/-- The engine's reply to `POST /containers/create`. -/
structure CreateResponse where
  Id : String
  Warnings : List String
deriving DecidableEq

/-- `Docker.createContainer`: wraps the engine's `{ Id, Warnings }` reply
into a fresh handle — the only place the two fields are ever assigned. -/
def Docker.createContainer (resp : CreateResponse) : Container :=
  { id := resp.Id, warnings := resp.Warnings }

theorem logsConsume_all {handler : String → Bool} :
    ∀ {stream : List String}, (∀ l ∈ stream, handler l = false) →
      logsConsume handler stream = stream := by
  intro stream
  induction stream with
  | nil => intro _; rfl
  | cons line rest ih =>
    intro h
    have hline : handler line = false := h line (List.mem_cons_self line rest)
    unfold logsConsume
    rw [hline]
    simp only [Bool.false_eq_true, if_false]
    rw [ih fun l hl => h l (List.mem_cons_of_mem line hl)]

theorem logsConsume_first_sentinel {handler : String → Bool} {m : String} :
    ∀ {pre post : List String}, (∀ l ∈ pre, handler l = false) → handler m = true →
      logsConsume handler (pre ++ m :: post) = pre ++ [m] := by
  intro pre
  induction pre with
  | nil =>
    intro post _ hm
    rw [List.nil_append]
    unfold logsConsume
    rw [hm]
    simp
  | cons a pre ih =>
    intro post h hm
    have ha : handler a = false := h a (List.mem_cons_self a pre)
    show logsConsume handler (a :: (pre ++ m :: post)) = a :: (pre ++ [m])
    unfold logsConsume
    rw [ha]
    simp only [Bool.false_eq_true, if_false]
    rw [ih (fun l hl => h l (List.mem_cons_of_mem a hl)) hm]

/-- C3. `Container.logs` invokes the handler on the streamed lines in
stream order; it stops consuming at the first line for which the handler
returns the stop sentinel `true` — consuming no later line — and on a
stream with no sentinel line it never stops early, consuming the whole
stream. -/
theorem container_logs_stop_sentinel (c : Container) (handler : String → Bool)
    (stream pre post : List String) (m : String) :
    ((∀ l ∈ stream, handler l = false) →
      (c.logs handler stream).2.2 = stream) ∧
    (stream = pre ++ m :: post → (∀ l ∈ pre, handler l = false) → handler m = true →
      (c.logs handler stream).2.2 = pre ++ [m]) := by
  constructor
  · intro h
    show logsConsume handler stream = stream
    exact logsConsume_all h
  · intro hs hpre hm
    subst hs
    show logsConsume handler (pre ++ m :: post) = pre ++ [m]
    exact logsConsume_first_sentinel hpre hm

/-- Witness for C3: the handler that stops on `"ready"` consumes
`["boot", "ready"]` from `["boot", "ready", "later"]` and the whole of a
sentinel-free stream. -/
theorem container_logs_stop_sentinel_witness :
    ((Container.mk "c1" []).logs (fun l => decide (l = "ready"))
        ["boot", "ready", "later"]).2.2 = ["boot", "ready"] ∧
      ((Container.mk "c1" []).logs (fun l => decide (l = "ready"))
        ["boot", "up"]).2.2 = ["boot", "up"] :=
  ⟨(container_logs_stop_sentinel (Container.mk "c1" []) (fun l => decide (l = "ready"))
        ["boot", "ready", "later"] ["boot"] ["later"] "ready").2 rfl
      (by intro l hl; simp only [List.mem_singleton] at hl; subst hl; rfl) (by rfl),
    (container_logs_stop_sentinel (Container.mk "c1" []) (fun l => decide (l = "ready"))
        ["boot", "up"] [] [] "").1
      (by intro l hl; fin_cases hl <;> rfl)⟩

/-- C9. A handle's identifier and warnings are assigned exactly once, at
construction from the engine's create response, and `start`, `stop`,
`remove`, `inspect`, `logs` and `exec` all leave both fields unchanged. -/
theorem container_fields_immutable (resp : CreateResponse) (c : Container)
    (handler : String → Bool) (stream : List String) (cmd : List String) :
    ((Docker.createContainer resp).id = resp.Id ∧
      (Docker.createContainer resp).warnings = resp.Warnings) ∧
    ((c.start.1.id = c.id ∧ c.start.1.warnings = c.warnings) ∧
      (c.stop.1.id = c.id ∧ c.stop.1.warnings = c.warnings) ∧
      (c.remove.1.id = c.id ∧ c.remove.1.warnings = c.warnings) ∧
      (c.inspect.1.id = c.id ∧ c.inspect.1.warnings = c.warnings) ∧
      ((c.logs handler stream).1.id = c.id ∧
        (c.logs handler stream).1.warnings = c.warnings) ∧
      ((c.exec cmd).1.id = c.id ∧ (c.exec cmd).1.warnings = c.warnings)) :=
  ⟨⟨rfl, rfl⟩, ⟨rfl, rfl⟩, ⟨rfl, rfl⟩, ⟨rfl, rfl⟩, ⟨rfl, rfl⟩, ⟨rfl, rfl⟩, ⟨rfl, rfl⟩⟩

/-- `assertPostgresOptionKey(key)`: throws unless the key is one of the
supported option keys `["schema"]`. -/
def assertPostgresOptionKey (key : String) : Except JsErr Unit :=
  if (["schema"].contains key) = false then
    Except.error (JsErr.genericError ("Invalid postgres option key: " ++ key))
  else Except.ok ()

/-- The `for (const key in options)` loop of `postgresOptionsToString`:
assert each key and push `"key=value"`, stopping at the first bad key. -/
def optionPairs : List (String × String) → Except JsErr (List String)
  | [] => Except.ok []
  | (k, v) :: rest => do
    let _ ← assertPostgresOptionKey k
    let vs ← optionPairs rest
    Except.ok ((k ++ "=" ++ v) :: vs)

/-- JavaScript `values.join("&")`. -/
def joinAmp : List String → String
  | [] => ""
  | [v] => v
  | v :: rest => v ++ "&" ++ joinAmp rest

/-- `postgresOptionsToString(options?)`: empty string for an absent
options object, otherwise `"?" + values.join("&")` — which is a bare
`"?"` for a present-but-empty options object. -/
def postgresOptionsToString : Option (List (String × String)) → Except JsErr String
  | Option.none => Except.ok ""
  | Option.some opts => do
    let values ← optionPairs opts
    Except.ok ("?" ++ joinAmp values)

/-- The argument record of `getConnectionUrl`; an options object is a
key/value list in property order (`none` = argument absent). -/
structure ConnectionUrlConfig where
  host : String
  port : Nat
  user : String
  pass : String
  name : String
  options : Option (List (String × String))
deriving DecidableEq

/-- `getConnectionUrl(...)`: the template literal
`postgres://${user}:${pass}@${host}:${port}/${name}` followed by the
options string; `${port}` renders the number in decimal (`Nat.repr`). -/
def getConnectionUrl (c : ConnectionUrlConfig) : Except JsErr String := do
  let opts ← postgresOptionsToString c.options
  Except.ok ("postgres://" ++ c.user ++ ":" ++ c.pass ++ "@" ++ c.host ++ ":" ++
    Nat.repr c.port ++ "/" ++ c.name ++ opts)

/-- `PostgresTestContainer.url(name, options?)`: builds the connection
URL from `connectionInfo` (host `127.0.0.1`, the allocated host port and
the configured credentials).  This — like `client(name, options?)`,
which passes its result to the postgres driver — runs the option-key
check before anything touches the network. -/
def PostgresTestContainer.url (port : Nat) (username password : String) (name : String)
    (options : Option (List (String × String))) : Except JsErr String :=
  getConnectionUrl
    { host := "127.0.0.1", port := port, user := username, pass := password,
      name := name, options := options }

theorem assertPostgresOptionKey_schema : assertPostgresOptionKey "schema" = Except.ok () := rfl

theorem assertPostgresOptionKey_bad {k : String} (hk : k ≠ "schema") :
    assertPostgresOptionKey k =
      Except.error (JsErr.genericError ("Invalid postgres option key: " ++ k)) := by
  unfold assertPostgresOptionKey
  have : (["schema"].contains k) = false := by
    simp only [List.contains_cons, List.contains_nil, Bool.or_false, beq_iff_eq]
    simp only [beq_eq_false_iff_ne, ne_eq, decide_eq_false_iff_not]
    exact hk
  rw [this]
  rfl

theorem optionPairs_all_schema {opts : List (String × String)}
    (h : ∀ kv ∈ opts, kv.1 = "schema") :
    optionPairs opts = Except.ok (opts.map (fun kv => kv.1 ++ "=" ++ kv.2)) := by
  induction opts with
  | nil => rfl
  | cons kv rest ih =>
    obtain ⟨k, v⟩ := kv
    have hk : k = "schema" := h (k, v) (List.mem_cons_self _ _)
    subst hk
    simp only [optionPairs, assertPostgresOptionKey_schema,
      ih fun kv hkv => h kv (List.mem_cons_of_mem _ hkv)]
    rfl

theorem optionPairs_first_bad {pre post : List (String × String)} {k v : String}
    (hpre : ∀ kv ∈ pre, kv.1 = "schema") (hk : k ≠ "schema") :
    optionPairs (pre ++ (k, v) :: post) =
      Except.error (JsErr.genericError ("Invalid postgres option key: " ++ k)) := by
  induction pre with
  | nil =>
    rw [List.nil_append]
    simp only [optionPairs, assertPostgresOptionKey_bad hk]
    rfl
  | cons kv pre ih =>
    obtain ⟨k2, v2⟩ := kv
    have hk2 : k2 = "schema" := hpre (k2, v2) (List.mem_cons_self _ _)
    subst hk2
    show optionPairs (("schema", v2) :: (pre ++ (k, v) :: post)) = _
    simp only [optionPairs, assertPostgresOptionKey_schema,
      ih fun kv hkv => hpre kv (List.mem_cons_of_mem _ hkv)]
    rfl

theorem exists_first_bad {opts : List (String × String)}
    (h : ∃ kv ∈ opts, kv.1 ≠ "schema") :
    ∃ pre k v post, opts = pre ++ (k, v) :: post ∧
      (∀ kv ∈ pre, kv.1 = "schema") ∧ k ≠ "schema" := by
  induction opts with
  | nil => simp at h
  | cons kv rest ih =>
    by_cases hk : kv.1 = "schema"
    · have hrest : ∃ kv ∈ rest, kv.1 ≠ "schema" := by
        obtain ⟨kv2, hkv2, hbad⟩ := h
        rcases List.mem_cons.mp hkv2 with rfl | hmem
        · exact absurd hk hbad
        · exact ⟨kv2, hmem, hbad⟩
      obtain ⟨pre, k, v, post, heq, hpre, hbad⟩ := ih hrest
      refine ⟨kv :: pre, k, v, post, by rw [heq]; rfl, ?_, hbad⟩
      intro x hx
      rcases List.mem_cons.mp hx with rfl | hmem
      · exact hk
      · exact hpre x hmem
    · exact ⟨[], kv.1, kv.2, rest, by simp, by simp, hk⟩

/-- C8. Building a connection URL (the shared step of
`PostgresTestContainer.url` and `.client`) with an options object that
contains any key other than `"schema"` fails — purely, before any
network call — with an error naming the first such invalid key, while an
options object whose keys are all supported produces a URL without
error. -/
theorem url_rejects_invalid_option_key (port : Nat) (username password name : String)
    (opts pre post : List (String × String)) (k v : String) :
    (opts = pre ++ (k, v) :: post → (∀ kv ∈ pre, kv.1 = "schema") → k ≠ "schema" →
      PostgresTestContainer.url port username password name (some opts) =
        Except.error (JsErr.genericError ("Invalid postgres option key: " ++ k))) ∧
    ((∃ kv ∈ opts, kv.1 ≠ "schema") →
      ∃ k2, k2 ≠ "schema" ∧ (∃ v2, (k2, v2) ∈ opts) ∧
        PostgresTestContainer.url port username password name (some opts) =
          Except.error (JsErr.genericError ("Invalid postgres option key: " ++ k2))) ∧
    ((∀ kv ∈ opts, kv.1 = "schema") →
      ∃ s, PostgresTestContainer.url port username password name (some opts) =
        Except.ok s) := by
  have hbadcase : ∀ (pre2 post2 : List (String × String)) (k2 v2 : String),
      opts = pre2 ++ (k2, v2) :: post2 → (∀ kv ∈ pre2, kv.1 = "schema") → k2 ≠ "schema" →
      PostgresTestContainer.url port username password name (some opts) =
        Except.error (JsErr.genericError ("Invalid postgres option key: " ++ k2)) := by
    intro pre2 post2 k2 v2 hsplit hpre hk
    subst hsplit
    unfold PostgresTestContainer.url getConnectionUrl
    simp only [postgresOptionsToString, optionPairs_first_bad hpre hk]
    rfl
  refine ⟨fun hsplit hpre hk => hbadcase pre post k v hsplit hpre hk, ?_, ?_⟩
  · intro hbad
    obtain ⟨pre2, k2, v2, post2, heq, hpre2, hk2⟩ := exists_first_bad hbad
    refine ⟨k2, hk2, ⟨v2, by rw [heq]; simp⟩, hbadcase pre2 post2 k2 v2 heq hpre2 hk2⟩
  · intro hgood
    unfold PostgresTestContainer.url getConnectionUrl
    simp only [postgresOptionsToString, optionPairs_all_schema hgood]
    exact ⟨_, rfl⟩

/-- Witness for C8: `sslmode` is rejected with the error naming it;
`schema` is accepted. -/
theorem url_rejects_invalid_option_key_witness :
    PostgresTestContainer.url 5432 "postgres" "postgres" "db" (some [("sslmode", "off")]) =
        Except.error (JsErr.genericError "Invalid postgres option key: sslmode") ∧
      ∃ s, PostgresTestContainer.url 5432 "postgres" "postgres" "db"
        (some [("schema", "public")]) = Except.ok s :=
  ⟨(url_rejects_invalid_option_key 5432 "postgres" "postgres" "db"
        [("sslmode", "off")] [] [] "sslmode" "off").1 rfl (by intro kv hkv; simp at hkv)
      (by decide),
    (url_rejects_invalid_option_key 5432 "postgres" "postgres" "db"
        [("schema", "public")] [] [] "" "").2.2
      (by intro kv hkv; simp only [List.mem_singleton] at hkv; subst hkv; rfl)⟩

/-- Split a character list at the first occurrence of `c` (separator
removed); `none` when `c` does not occur. -/
def splitFirst (c : Char) : List Char → Option (List Char × List Char)
  | [] => Option.none
  | x :: xs =>
    if x = c then some ([], xs)
    else (splitFirst c xs).map (fun p => (x :: p.1, p.2))

/-- Split a character list at the last occurrence of `c`. -/
def splitLast (c : Char) (l : List Char) : Option (List Char × List Char) :=
  match splitFirst c l.reverse with
  | Option.none => Option.none
  | some (a, b) => some (b.reverse, a.reverse)

/-- Consume an expected literal from the front of the input. -/
def consumeLit : List Char → List Char → Option (List Char)
  | [], rest => some rest
  | _ :: _, [] => Option.none
  | e :: es, x :: xs => if x = e then consumeLit es xs else Option.none

/-- Split on every occurrence of `c`, keeping all (possibly empty)
pieces, separators removed. -/
def splitAll (c : Char) : List Char → List (List Char)
  | [] => [[]]
  | x :: xs =>
    if x = c then [] :: splitAll c xs
    else
      match splitAll c xs with
      | [] => [[x]]
      | p :: ps => (x :: p) :: ps

/-- Parse a nonempty all-digit character list as a decimal natural. -/
def digitsToNat? (l : List Char) : Option Nat :=
  if l ≠ [] ∧ l.all Char.isDigit then
    some (l.foldl (fun a ch => a * 10 + (ch.toNat - 48)) 0)
  else Option.none

/-- Parse an `&`-separated query as `key=value` pairs. -/
def parseQueryPairs (q : List Char) : Option (List (String × String)) :=
  (splitAll '&' q).mapM fun piece =>
    match splitFirst '=' piece with
    | Option.none => Option.none
    | some (k, v) => some (String.mk k, String.mk v)

/-- Modelled from the spec: "a connection URL … parses back to the
identical component values".  The repository ships no URL parser (the
URL is consumed by the external postgres driver), so parsing is modelled
here by the standard URL grammar for the shape `getConnectionUrl`
produces: scheme `postgres://`, then `userinfo@host:port` up to the
first `/` (userinfo split from the host at the last `@`, user from pass
at the first `:`), then the database name up to the first `?`, then the
`&`-separated `key=value` options. -/
def parseConnectionUrl (url : String) : Option ConnectionUrlConfig := do
  let rest ← consumeLit "postgres://".data url.data
  let (authority, pathQuery) ← splitFirst '/' rest
  let (userinfo, hostport) ← splitLast '@' authority
  let (user, pass) ← splitFirst ':' userinfo
  let (host, portStr) ← splitFirst ':' hostport
  let port ← digitsToNat? portStr
  match splitFirst '?' pathQuery with
  | Option.none =>
    some { host := String.mk host, port := port, user := String.mk user,
           pass := String.mk pass, name := String.mk pathQuery, options := Option.none }
  | some (name, query) => do
    let pairs ← if query = [] then some [] else parseQueryPairs query
    some { host := String.mk host, port := port, user := String.mk user,
           pass := String.mk pass, name := String.mk name, options := some pairs }

theorem parseConnectionUrl_sample :
    parseConnectionUrl "postgres://u:p@h:15/d?schema=s" =
      some ⟨"h", 15, "u", "p", "d", some [("schema", "s")]⟩ := by rfl

/-- C7 counterexample.  The URL built from user `"a:b"` and password
`"p"` contains three `:`-separated userinfo segments; parsing splits
userinfo at its first `:`, recovering user `"a"` and password `"b:p"` —
not the original components.  (`getConnectionUrl` inserts the components
verbatim, so components containing URL delimiters do not round-trip.) -/
theorem connection_url_roundtrip_cex :
    getConnectionUrl ⟨"h", 1, "a:b", "p", "d", Option.none⟩ =
        Except.ok "postgres://a:b:p@h:1/d" ∧
      parseConnectionUrl "postgres://a:b:p@h:1/d" =
        some ⟨"h", 1, "a", "b:p", "d", Option.none⟩ ∧
      ("a" : String) ≠ "a:b" :=
  ⟨rfl, rfl, by decide⟩

theorem toDigitsCore_acc (b : Nat) :
    ∀ (fuel n : Nat) (ds : List Char),
      Nat.toDigitsCore b fuel n ds = Nat.toDigitsCore b fuel n [] ++ ds := by
  intro fuel
  induction fuel with
  | zero => intro n ds; rfl
  | succ f ih =>
    intro n ds
    simp only [Nat.toDigitsCore]
    by_cases h : n / b = 0
    · simp [h]
    · simp only [h, if_false]
      rw [ih (n / b) [Nat.digitChar (n % b)], ih (n / b) (Nat.digitChar (n % b) :: ds)]
      simp

theorem toDigitsCore_fuel (b : Nat) (hb : 2 ≤ b) :
    ∀ (f1 n f2 : Nat), n < f1 → n < f2 →
      Nat.toDigitsCore b f1 n [] = Nat.toDigitsCore b f2 n [] := by
  intro f1
  induction f1 with
  | zero => intro n f2 h1 _; omega
  | succ a ih =>
    intro n f2 h1 h2
    obtain ⟨cc, rfl⟩ : ∃ cc, f2 = cc + 1 := ⟨f2 - 1, by omega⟩
    simp only [Nat.toDigitsCore]
    by_cases h : n / b = 0
    · simp [h]
    · simp only [h, if_false]
      rw [toDigitsCore_acc, toDigitsCore_acc b cc]
      have hn0 : 0 < n := by
        rcases Nat.eq_zero_or_pos n with hz | hp
        · exfalso; apply h; rw [hz]; simp
        · exact hp
      have hdiv : n / b < n := Nat.div_lt_self hn0 (by omega)
      rw [ih (n / b) cc (by omega) (by omega)]

theorem toDigits_lt_ten {n : Nat} (h : n < 10) :
    Nat.toDigits 10 n = [Nat.digitChar n] := by
  show Nat.toDigitsCore 10 (n + 1) n [] = _
  simp only [Nat.toDigitsCore]
  have hd : n / 10 = 0 := Nat.div_eq_of_lt h
  simp [hd, Nat.mod_eq_of_lt h]

theorem toDigits_ge_ten {n : Nat} (h : 10 ≤ n) :
    Nat.toDigits 10 n = Nat.toDigits 10 (n / 10) ++ [Nat.digitChar (n % 10)] := by
  show Nat.toDigitsCore 10 (n + 1) n [] = _
  simp only [Nat.toDigitsCore]
  have hd : ¬(n / 10 = 0) := by
    intro hh
    have h1 : 1 ≤ n / 10 := (Nat.one_le_div_iff (by norm_num)).mpr h
    omega
  simp only [hd, if_false]
  rw [toDigitsCore_acc]
  have hfuel : Nat.toDigitsCore 10 n (n / 10) [] = Nat.toDigits 10 (n / 10) := by
    show _ = Nat.toDigitsCore 10 (n / 10 + 1) (n / 10) []
    have hdiv : n / 10 < n := Nat.div_lt_self (by omega) (by norm_num)
    exact toDigitsCore_fuel 10 (by norm_num) n (n / 10) (n / 10 + 1) (by omega) (by omega)
  rw [hfuel]

theorem digitChar_isDigit {d : Nat} (h : d < 10) : (Nat.digitChar d).isDigit = true := by
  interval_cases d <;> decide

theorem digitChar_toNat {d : Nat} (h : d < 10) : (Nat.digitChar d).toNat - 48 = d := by
  interval_cases d <;> decide

theorem toDigits_all_digit :
    ∀ n : Nat, ∀ ch ∈ Nat.toDigits 10 n, ch.isDigit = true := by
  intro n
  induction n using Nat.strong_induction_on with
  | _ n ih =>
    by_cases h : n < 10
    · rw [toDigits_lt_ten h]
      intro ch hch
      simp only [List.mem_singleton] at hch
      subst hch
      exact digitChar_isDigit h
    · push_neg at h
      rw [toDigits_ge_ten h]
      intro ch hch
      rw [List.mem_append] at hch
      rcases hch with hch | hch
      · exact ih (n / 10) (Nat.div_lt_self (by omega) (by norm_num)) ch hch
      · simp only [List.mem_singleton] at hch
        subst hch
        exact digitChar_isDigit (Nat.mod_lt n (by norm_num))

theorem toDigits_ne_nil (n : Nat) : Nat.toDigits 10 n ≠ [] := by
  by_cases h : n < 10
  · rw [toDigits_lt_ten h]; simp
  · push_neg at h; rw [toDigits_ge_ten h]; simp

theorem toDigits_foldl :
    ∀ n : Nat, ∀ acc : Nat,
      (Nat.toDigits 10 n).foldl (fun a ch => a * 10 + (ch.toNat - 48)) acc =
        acc * 10 ^ (Nat.toDigits 10 n).length + n := by
  intro n
  induction n using Nat.strong_induction_on with
  | _ n ih =>
    intro acc
    by_cases h : n < 10
    · rw [toDigits_lt_ten h]
      simp only [List.foldl, List.length_singleton, pow_one]
      rw [digitChar_toNat h]
    · push_neg at h
      rw [toDigits_ge_ten h, List.foldl_append]
      have hdiv : n / 10 < n := Nat.div_lt_self (by omega) (by norm_num)
      rw [ih (n / 10) hdiv acc]
      simp only [List.foldl, List.length_append, List.length_singleton]
      rw [digitChar_toNat (Nat.mod_lt n (by norm_num))]
      rw [pow_succ]
      have hmod := Nat.div_add_mod n 10
      generalize (10 : Nat) ^ (Nat.toDigits 10 (n / 10)).length = K
      calc (acc * K + n / 10) * 10 + n % 10
          = acc * K * 10 + (10 * (n / 10) + n % 10) := by ring
        _ = acc * K * 10 + n := by rw [hmod]
        _ = acc * (K * 10) + n := by ring

theorem repr_data (n : Nat) : (Nat.repr n).data = Nat.toDigits 10 n := rfl

theorem digitsToNat?_repr (n : Nat) : digitsToNat? ((Nat.repr n).data) = some n := by
  rw [repr_data]
  unfold digitsToNat?
  have h1 : Nat.toDigits 10 n ≠ [] := toDigits_ne_nil n
  have h2 : (Nat.toDigits 10 n).all Char.isDigit = true := by
    rw [List.all_eq_true]
    intro ch hch
    exact toDigits_all_digit n ch hch
  rw [if_pos ⟨h1, h2⟩, toDigits_foldl n 0]
  simp

theorem isDigit_ne_delims {ch : Char} (h : ch.isDigit = true) :
    ch ≠ '/' ∧ ch ≠ ':' ∧ ch ≠ '@' ∧ ch ≠ '?' ∧ ch ≠ '&' ∧ ch ≠ '=' := by
  refine ⟨?_, ?_, ?_, ?_, ?_, ?_⟩ <;>
    (intro hh; subst hh; exact absurd h (by decide))

theorem repr_data_ne_delims (n : Nat) {d : Char}
    (hd : d = '/' ∨ d = ':' ∨ d = '@' ∨ d = '?' ∨ d = '&' ∨ d = '=') :
    d ∉ (Nat.repr n).data := by
  intro hmem
  rw [repr_data] at hmem
  have := isDigit_ne_delims (toDigits_all_digit n d hmem)
  rcases hd with rfl | rfl | rfl | rfl | rfl | rfl <;> tauto

theorem splitFirst_not_mem {c : Char} :
    ∀ {l : List Char}, c ∉ l → splitFirst c l = Option.none := by
  intro l
  induction l with
  | nil => intro _; rfl
  | cons x xs ih =>
    intro h
    have hx : ¬(x = c) := fun hh => h (hh ▸ List.mem_cons_self x xs)
    unfold splitFirst
    rw [if_neg hx, ih fun hh => h (List.mem_cons_of_mem x hh)]
    rfl

theorem splitFirst_append {c : Char} :
    ∀ {pre : List Char}, c ∉ pre → ∀ (post : List Char),
      splitFirst c (pre ++ c :: post) = some (pre, post) := by
  intro pre
  induction pre with
  | nil =>
    intro _ post
    rw [List.nil_append]
    unfold splitFirst
    rw [if_pos rfl]
  | cons x pre ih =>
    intro h post
    have hx : ¬(x = c) := fun hh => h (hh ▸ List.mem_cons_self x pre)
    show splitFirst c (x :: (pre ++ c :: post)) = _
    unfold splitFirst
    rw [if_neg hx, ih (fun hh => h (List.mem_cons_of_mem x hh)) post]
    rfl

theorem splitLast_append {c : Char} {pre post : List Char} (h : c ∉ post) :
    splitLast c (pre ++ c :: post) = some (pre, post) := by
  unfold splitLast
  have hrev : (pre ++ c :: post).reverse = post.reverse ++ c :: pre.reverse := by
    simp [List.reverse_append]
  rw [hrev, splitFirst_append (by simpa using h) pre.reverse]
  simp

theorem consumeLit_append : ∀ (e rest : List Char), consumeLit e (e ++ rest) = some rest := by
  intro e
  induction e with
  | nil => intro rest; rfl
  | cons x xs ih =>
    intro rest
    show consumeLit (x :: xs) (x :: (xs ++ rest)) = _
    unfold consumeLit
    rw [if_pos rfl]
    exact ih rest

theorem splitAll_cons (c x : Char) (xs : List Char) :
    splitAll c (x :: xs) =
      if x = c then [] :: splitAll c xs
      else
        match splitAll c xs with
        | [] => [[x]]
        | p :: ps => (x :: p) :: ps := rfl

theorem splitAll_no_sep {c : Char} :
    ∀ {l : List Char}, c ∉ l → splitAll c l = [l] := by
  intro l
  induction l with
  | nil => intro _; rfl
  | cons x xs ih =>
    intro h
    have hx : ¬(x = c) := fun hh => h (hh ▸ List.mem_cons_self x xs)
    rw [splitAll_cons, if_neg hx, ih fun hh => h (List.mem_cons_of_mem x hh)]

theorem splitAll_sep {c : Char} :
    ∀ {p1 : List Char}, c ∉ p1 → ∀ (rest : List Char),
      splitAll c (p1 ++ c :: rest) = p1 :: splitAll c rest := by
  intro p1
  induction p1 with
  | nil =>
    intro _ rest
    rw [List.nil_append, splitAll_cons, if_pos rfl]
  | cons x p1 ih =>
    intro h rest
    have hx : ¬(x = c) := fun hh => h (hh ▸ List.mem_cons_self x p1)
    show splitAll c (x :: (p1 ++ c :: rest)) = _
    rw [splitAll_cons, if_neg hx, ih (fun hh => h (List.mem_cons_of_mem x hh)) rest]

theorem string_eta (s : String) : String.mk s.data = s := rfl

theorem colon_data : (":" : String).data = [':'] := rfl

theorem at_data : ("@" : String).data = ['@'] := rfl

theorem slash_data : ("/" : String).data = ['/'] := rfl

theorem qmark_data : ("?" : String).data = ['?'] := rfl

theorem amp_data : ("&" : String).data = ['&'] := rfl

theorem eq_data : ("=" : String).data = ['='] := rfl

theorem joinAmp_nil : joinAmp [] = "" := rfl

theorem joinAmp_single (v : String) : joinAmp [v] = v := rfl

theorem joinAmp_cons (v w : String) (rest : List String) :
    joinAmp (v :: w :: rest) = v ++ "&" ++ joinAmp (w :: rest) := rfl

theorem joinAmp_head_data (x : String) (xs : List String) :
    ∃ t, (joinAmp (x :: xs)).data = x.data ++ t := by
  cases xs with
  | nil => exact ⟨[], by simp [joinAmp_single]⟩
  | cons w rest =>
    refine ⟨'&' :: (joinAmp (w :: rest)).data, ?_⟩
    rw [joinAmp_cons]
    simp [String.data_append, amp_data]

theorem option_bind_some {α β : Type} (a : α) (f : α → Option β) :
    (some a : Option α) >>= f = f a := rfl

theorem splitAll_joinAmp :
    ∀ {values : List String}, values ≠ [] → (∀ v ∈ values, '&' ∉ v.data) →
      splitAll '&' (joinAmp values).data = values.map String.data := by
  intro values
  induction values with
  | nil => intro h _; exact absurd rfl h
  | cons v vs ih =>
    intro _ hfree
    cases vs with
    | nil =>
      rw [joinAmp_single, splitAll_no_sep (hfree v (List.mem_cons_self v []))]
      rfl
    | cons w rest =>
      have hdata : (joinAmp (v :: w :: rest)).data =
          v.data ++ '&' :: (joinAmp (w :: rest)).data := by
        rw [joinAmp_cons]
        simp [String.data_append, amp_data]
      rw [hdata, splitAll_sep (hfree v (List.mem_cons_self _ _)),
        ih (by simp) fun y hy => hfree y (List.mem_cons_of_mem v hy)]
      rfl

theorem mapM_map_option_some {α β γ : Type} {hf : α → β} {f : β → Option γ} {g : α → γ} :
    ∀ {l : List α}, (∀ x ∈ l, f (hf x) = some (g x)) →
      (l.map hf).mapM f = some (l.map g) := by
  intro l
  induction l with
  | nil => intro _; rfl
  | cons x xs ih =>
    intro hx
    rw [List.map_cons, List.mapM_cons, hx x (List.mem_cons_self x xs),
      ih fun y hy => hx y (List.mem_cons_of_mem x hy)]
    rfl

theorem parseQueryPairs_join {opts : List (String × String)} (hne : opts ≠ [])
    (hkeys : ∀ kv ∈ opts, kv.1 = "schema") (hvals : ∀ kv ∈ opts, '&' ∉ kv.2.data) :
    parseQueryPairs (joinAmp (opts.map fun kv => kv.1 ++ "=" ++ kv.2)).data = some opts := by
  unfold parseQueryPairs
  have hsplit : splitAll '&' (joinAmp (opts.map fun kv => kv.1 ++ "=" ++ kv.2)).data =
      (opts.map fun kv => kv.1 ++ "=" ++ kv.2).map String.data := by
    refine splitAll_joinAmp (by simpa using hne) ?_
    intro v hv
    rw [List.mem_map] at hv
    obtain ⟨kv, hkv, rfl⟩ := hv
    intro hmem
    have hshape : (kv.1 ++ "=" ++ kv.2).data = kv.1.data ++ '=' :: kv.2.data := by
      simp [String.data_append, eq_data]
    rw [hshape, List.mem_append, List.mem_cons] at hmem
    rcases hmem with h1 | h1 | h1
    · rw [hkeys kv hkv] at h1
      exact absurd h1 (by decide)
    · exact absurd h1 (by decide)
    · exact hvals kv hkv h1
  rw [hsplit, List.map_map]
  have helem : ∀ kv ∈ opts,
      (match splitFirst '='
          ((String.data ∘ fun kv : String × String => kv.1 ++ "=" ++ kv.2) kv) with
        | Option.none => Option.none
        | some (k, v) => some (String.mk k, String.mk v)) = some (id kv) := by
    intro kv hkv
    have hshape : (String.data ∘ fun kv : String × String => kv.1 ++ "=" ++ kv.2) kv =
        kv.1.data ++ '=' :: kv.2.data := by
      simp [Function.comp, String.data_append, eq_data]
    have hkeq : '=' ∉ kv.1.data := by
      rw [hkeys kv hkv]
      decide
    rw [hshape, splitFirst_append hkeq]
    rfl
  rw [mapM_map_option_some helem, List.map_id]

theorem parse_core (url u pw h nm : String) (port : Nat) (osData : List Char)
    (hdata : url.data = "postgres://".data ++
      (u.data ++ ':' :: (pw.data ++ '@' :: (h.data ++ ':' ::
        ((Nat.repr port).data ++ '/' :: (nm.data ++ osData))))))
    (hu1 : ':' ∉ u.data) (hu2 : '/' ∉ u.data) (hp1 : '/' ∉ pw.data)
    (hh1 : ':' ∉ h.data) (hh2 : '/' ∉ h.data) (hh3 : '@' ∉ h.data) :
    parseConnectionUrl url =
      match splitFirst '?' (nm.data ++ osData) with
      | Option.none =>
        some { host := h, port := port, user := u, pass := pw,
               name := String.mk (nm.data ++ osData), options := Option.none }
      | some (name, query) =>
        if query = [] then
          some { host := h, port := port, user := u, pass := pw,
                 name := String.mk name, options := some [] }
        else
          (parseQueryPairs query).bind fun pairs =>
            some { host := h, port := port, user := u, pass := pw,
                   name := String.mk name, options := some pairs } := by
  have hD : ∀ d : Char, d = '/' ∨ d = ':' ∨ d = '@' → d ∉ (Nat.repr port).data :=
    fun d hd => repr_data_ne_delims port (by tauto)
  have hauth : u.data ++ ':' :: (pw.data ++ '@' :: (h.data ++ ':' ::
      ((Nat.repr port).data ++ '/' :: (nm.data ++ osData)))) =
      (u.data ++ ':' :: (pw.data ++ '@' :: (h.data ++ ':' :: (Nat.repr port).data))) ++
        '/' :: (nm.data ++ osData) := by
    simp [List.append_assoc]
  have hslashA : '/' ∉ u.data ++ ':' :: (pw.data ++ '@' :: (h.data ++ ':' ::
      (Nat.repr port).data)) := by
    intro hmem
    simp only [List.mem_append, List.mem_cons] at hmem
    rcases hmem with h1 | h1 | h1 | h1 | h1 | h1 | h1
    · exact hu2 h1
    · exact absurd h1 (by decide)
    · exact hp1 h1
    · exact absurd h1 (by decide)
    · exact hh2 h1
    · exact absurd h1 (by decide)
    · exact hD '/' (by tauto) h1
  have hauth2 : u.data ++ ':' :: (pw.data ++ '@' :: (h.data ++ ':' ::
      (Nat.repr port).data)) =
      (u.data ++ ':' :: pw.data) ++ '@' :: (h.data ++ ':' :: (Nat.repr port).data) := by
    simp [List.append_assoc]
  have hatno : '@' ∉ h.data ++ ':' :: (Nat.repr port).data := by
    intro hmem
    simp only [List.mem_append, List.mem_cons] at hmem
    rcases hmem with h1 | h1 | h1
    · exact hh3 h1
    · exact absurd h1 (by decide)
    · exact hD '@' (by tauto) h1
  unfold parseConnectionUrl
  rw [hdata, hauth, consumeLit_append]
  rw [option_bind_some]
  rw [splitFirst_append hslashA]
  rw [option_bind_some]
  simp only []
  rw [hauth2, splitLast_append hatno]
  rw [option_bind_some]
  simp only []
  rw [splitFirst_append hu1]
  rw [option_bind_some]
  simp only []
  rw [splitFirst_append hh1]
  rw [option_bind_some]
  simp only []
  rw [digitsToNat?_repr]
  rw [option_bind_some]
  simp only [string_eta]
  rfl

theorem except_bind_ok {ε α β : Type} (a : α) (f : α → Except ε β) :
    (Except.ok a : Except ε α) >>= f = f a := rfl

theorem schema_data : ("schema" : String).data = ['s', 'c', 'h', 'e', 'm', 'a'] := rfl

/-- C7 as amended.  A connection URL built by `getConnectionUrl` parses
back to the identical component values provided the components avoid the
URL delimiters the parser splits on: no `:` or `/` in the user, no `/`
in the password, no `:`, `/` or `@` in the host, no `?` in the database
name, and option entries with the supported key `"schema"` and `&`-free
values (components containing delimiters do not round-trip, see the
counterexample). -/
theorem connection_url_roundtrip (c : ConnectionUrlConfig)
    (hu1 : ':' ∉ c.user.data) (hu2 : '/' ∉ c.user.data)
    (hp1 : '/' ∉ c.pass.data)
    (hh1 : ':' ∉ c.host.data) (hh2 : '/' ∉ c.host.data) (hh3 : '@' ∉ c.host.data)
    (hn1 : '?' ∉ c.name.data)
    (hopt : ∀ l ∈ c.options, ∀ kv ∈ l, kv.1 = "schema" ∧ '&' ∉ kv.2.data)
    (url : String) (hurl : getConnectionUrl c = Except.ok url) :
    parseConnectionUrl url = some c := by
  obtain ⟨host, port, user, pass, nam, options⟩ := c
  dsimp only at hu1 hu2 hp1 hh1 hh2 hh3 hn1 hopt hurl ⊢
  cases options with
  | none =>
    have hval : getConnectionUrl ⟨host, port, user, pass, nam, Option.none⟩ =
        Except.ok ("postgres://" ++ user ++ ":" ++ pass ++ "@" ++ host ++ ":" ++
          Nat.repr port ++ "/" ++ nam ++ "") := rfl
    rw [hval] at hurl
    injection hurl with hu
    subst hu
    rw [parse_core _ user pass host nam port []
      (by simp [String.data_append, colon_data, at_data, slash_data, List.append_assoc])
      hu1 hu2 hp1 hh1 hh2 hh3]
    rw [List.append_nil, splitFirst_not_mem hn1]
  | some opts =>
    have hkeys : ∀ kv ∈ opts, kv.1 = "schema" := fun kv hkv => (hopt opts rfl kv hkv).1
    have hvals : ∀ kv ∈ opts, '&' ∉ kv.2.data := fun kv hkv => (hopt opts rfl kv hkv).2
    cases opts with
    | nil =>
      have hval : getConnectionUrl ⟨host, port, user, pass, nam, some []⟩ =
          Except.ok ("postgres://" ++ user ++ ":" ++ pass ++ "@" ++ host ++ ":" ++
            Nat.repr port ++ "/" ++ nam ++ ("?" ++ joinAmp [])) := rfl
      rw [hval] at hurl
      injection hurl with hu
      subst hu
      rw [parse_core _ user pass host nam port ['?']
        (by simp [String.data_append, colon_data, at_data, slash_data, qmark_data,
          joinAmp_nil, List.append_assoc])
        hu1 hu2 hp1 hh1 hh2 hh3]
      rw [splitFirst_append hn1 []]
      rfl
    | cons kv rest =>
      have hos : postgresOptionsToString (some (kv :: rest)) =
          Except.ok ("?" ++ joinAmp ((kv :: rest).map fun kv => kv.1 ++ "=" ++ kv.2)) := by
        show (optionPairs (kv :: rest)) >>=
            (fun values => Except.ok ("?" ++ joinAmp values)) = _
        rw [optionPairs_all_schema hkeys, except_bind_ok]
      have hval : getConnectionUrl ⟨host, port, user, pass, nam, some (kv :: rest)⟩ =
          Except.ok ("postgres://" ++ user ++ ":" ++ pass ++ "@" ++ host ++ ":" ++
            Nat.repr port ++ "/" ++ nam ++
            ("?" ++ joinAmp ((kv :: rest).map fun kv => kv.1 ++ "=" ++ kv.2))) := by
        unfold getConnectionUrl
        dsimp only
        rw [hos, except_bind_ok]
      rw [hval] at hurl
      injection hurl with hu
      subst hu
      rw [parse_core _ user pass host nam port
        ('?' :: (joinAmp ((kv :: rest).map fun kv => kv.1 ++ "=" ++ kv.2)).data)
        (by simp [String.data_append, colon_data, at_data, slash_data, qmark_data,
          List.append_assoc])
        hu1 hu2 hp1 hh1 hh2 hh3]
      rw [splitFirst_append hn1]
      have hQne : (joinAmp ((kv :: rest).map fun kv => kv.1 ++ "=" ++ kv.2)).data ≠ [] := by
        rw [List.map_cons]
        obtain ⟨t, ht⟩ := joinAmp_head_data (kv.1 ++ "=" ++ kv.2)
          (rest.map fun kv => kv.1 ++ "=" ++ kv.2)
        rw [ht]
        have hshape : (kv.1 ++ "=" ++ kv.2).data = kv.1.data ++ '=' :: kv.2.data := by
          simp [String.data_append, eq_data]
        rw [hshape, hkeys kv (List.mem_cons_self _ _), schema_data]
        simp
      simp only [string_eta]
      rw [if_neg hQne, parseQueryPairs_join (by simp) hkeys hvals]
      rfl

/-- Witness for C7: a representative delimiter-free configuration with a
`schema` option round-trips through build and parse. -/
theorem connection_url_roundtrip_witness :
    parseConnectionUrl "postgres://postgres:pg@127.0.0.1:5432/db?schema=public" =
      some ⟨"127.0.0.1", 5432, "postgres", "pg", "db", some [("schema", "public")]⟩ :=
  connection_url_roundtrip
    ⟨"127.0.0.1", 5432, "postgres", "pg", "db", some [("schema", "public")]⟩
    (by decide) (by decide) (by decide) (by decide) (by decide) (by decide) (by decide)
    (by
      intro l hl
      injection hl with hl2
      subst hl2
      intro kv hkv
      simp only [List.mem_singleton] at hkv
      subst hkv
      exact ⟨rfl, by decide⟩)
    "postgres://postgres:pg@127.0.0.1:5432/db?schema=public" rfl

end Testcontainers
